import Mathlib

/-!
Shallow embedding of `src/native/memoryfile.c`, the mmap-based arena
allocator, together with proofs about its operations.

Modelling conventions:
* All C `u64` / `size_t` arithmetic is over `Nat` with explicit reduction
  modulo `2 ^ 64` (`U64`) wherever the C program performs 64-bit
  arithmetic on values.  Field accesses such as `block->next` are address
  computations inside the mapping (`offset + 8`) and are kept as plain
  `Nat` addition.
* The mapped file is modelled at the granularity the allocator accesses
  it: a map `mem : Nat → Nat` from byte offset to the 64-bit word stored
  there, plus the header fields, which the C code reaches through
  `mf->header->...`.
* System calls (`ftruncate`, `mremap`) are modelled on their success
  path; `memfile_open`'s failure cascade is modelled separately with
  explicit step outcomes.
* Loops that chase `next` pointers in the C code terminate only on
  well-formed (acyclic) free lists; they are modelled with an explicit
  fuel argument.  A fuel at least the list length reproduces the C
  behaviour exactly; the theorems' hypotheses provide such fuel.
-/

namespace MemoryFile

/-- 2^64, the modulus of C `u64` / `size_t` arithmetic. -/
def U64 : Nat := 2 ^ 64

/-- 64-bit wrapping addition. -/
def u64add (a b : Nat) : Nat := (a + b) % U64

/-- 64-bit wrapping subtraction. -/
def u64sub (a b : Nat) : Nat := (a + (U64 - b % U64)) % U64

/-- Point update of a word map (one 64-bit store into the mapping). -/
def upd (m : Nat → Nat) (a v : Nat) : Nat → Nat := fun x => if x = a then v else m x

/-- The in-memory handle `memfile_t` together with the mapped file.
`magic`, `version`, `file_size`, `allocated`, `free_list_head` are the
fields of `memfile_header_t` (the C code accesses them through
`mf->header`); `mmap_size` is the handle field; `mem` holds the rest of
the mapped words (free nodes and allocation headers). -/
@[ext]
structure Memfile where
  magic : Nat
  version : Nat
  file_size : Nat
  allocated : Nat
  free_list_head : Nat
  mmap_size : Nat
  mem : Nat → Nat

/-- `memfile_ptr` (memoryfile.c:21-24): `NULL` when `offset == 0` or
`offset >= mf->mmap_size`, otherwise `base + offset` (modelled as the
offset itself). -/
def memfile_ptr (mf : Memfile) (offset : Nat) : Option Nat :=
  if offset = 0 ∨ mf.mmap_size ≤ offset then none else some offset

/-- `memfile_read` (memoryfile.c:30-36).  The C bounds check
`offset + len > mf->mmap_size` is u64 arithmetic, hence the wrapping
sum.  The returned list stands for the bytes `memcpy` copies out; the
properties below only inspect success or failure. -/
def memfile_read (mf : Memfile) (offset len : Nat) : Option (List Nat) :=
  if mf.mmap_size < u64add offset len then none
  else
    match memfile_ptr mf offset with
    | none => none
    | some src => some ((List.range len).map fun i => mf.mem (src + i))

/-- `memfile_write` (memoryfile.c:38-44), same checks as `memfile_read`;
`buf` is the source buffer of the `memcpy`. -/
def memfile_write (mf : Memfile) (offset : Nat) (buf : Nat → Nat) (len : Nat) :
    Option Memfile :=
  if mf.mmap_size < u64add offset len then none
  else
    match memfile_ptr mf offset with
    | none => none
    | some dst =>
        some { mf with mem := fun x => if dst ≤ x ∧ x < dst + len then buf (x - dst) else mf.mem x }

/-- `memfile_remap` (memoryfile.c:50-66) on its success path: the file is
truncated to `new_size`, the mapping is re-established (`mmap_size`
updated) and `file_size = new_size` is written into the header through
the new base.  The contents of the mapping are preserved by `mremap`. -/
def memfile_remap (mf : Memfile) (new_size : Nat) : Memfile :=
  { mf with mmap_size := new_size, file_size := new_size }

/-- `memfile_ensure_space` (memoryfile.c:68-79).  All comparisons and
sums are u64 (`allocated + needed` may wrap); `mmap_size * 2` is
`size_t` arithmetic. -/
def memfile_ensure_space (mf : Memfile) (needed : Nat) : Memfile :=
  if u64add mf.allocated needed ≤ mf.file_size then mf
  else
    let new0 := mf.mmap_size * 2 % U64
    let new_size :=
      if new0 < u64add mf.allocated needed
      then u64add (u64add mf.allocated needed) 4096
      else new0
    memfile_remap mf new_size

/-- The `total_size` computation of `memfile_alloc` (memoryfile.c:86-89):
`size + sizeof(memfile_alloc_t)` (u64, `sizeof = 8`) then
`(total_size + 7) & ~7ULL`, i.e. clear the low three bits. -/
def totalSize (size : Nat) : Nat := (u64add size 8 + 7) % U64 / 8 * 8

/-- The first-fit scan of `memfile_alloc` (memoryfile.c:92-134 loop
structure): starting from `(prev_offset, free_offset)` follow `next`
links until a block with `size ≥ total` is found, returning
`(prev_offset, free_offset)` for it, or `none` when the list ends.
`fuel` bounds the number of iterations (the C loop does not terminate on
a cyclic list; adequate fuel reproduces it exactly). -/
def findFit (mf : Memfile) (total : Nat) : Nat → Nat → Nat → Option (Nat × Nat)
  | 0, _, _ => none
  | fuel + 1, prev, fo =>
    if fo = 0 then none
    else if total ≤ mf.mem fo then some (prev, fo)
    else findFit mf total fuel fo (mf.mem (fo + 8))

/-- `memfile_alloc` (memoryfile.c:85-147).  Returns the updated state and
the caller-visible offset.  The writes follow the C statement order
exactly (in particular, in the split branch `new_free->next =
free_block->next` reads memory after `new_free->size` was stored).  The
bump path assumes `ensure_space` succeeds (its syscall failures are not
modelled), so the `0` out-of-memory return does not appear. -/
def memfile_alloc (mf : Memfile) (size : Nat) (fuel : Nat) : Memfile × Nat :=
  let total0 := totalSize size
  match findFit mf total0 fuel 0 mf.free_list_head with
  | some (prev, fo) =>
      let fs := mf.mem fo
      let remaining := fs - total0
      if 16 + 8 ≤ remaining then
        -- split the block
        let nfo := u64add fo total0
        let m1 := upd mf.mem nfo remaining
        let m2 := upd m1 (nfo + 8) (m1 (fo + 8))
        let mf2 :=
          if prev = 0 then { mf with mem := m2, free_list_head := nfo }
          else { mf with mem := upd m2 (prev + 8) nfo }
        ({ mf2 with mem := upd mf2.mem fo total0 }, u64add fo 8)
      else
        -- use the entire block
        let fnext := mf.mem (fo + 8)
        let mf2 :=
          if prev = 0 then { mf with free_list_head := fnext }
          else { mf with mem := upd mf.mem (prev + 8) fnext }
        ({ mf2 with mem := upd mf2.mem fo fs }, u64add fo 8)
  | none =>
      let mf1 := memfile_ensure_space mf total0
      let off := mf1.allocated
      ({ mf1 with
          mem := upd mf1.mem off total0,
          allocated := u64add mf1.allocated total0 }, u64add off 8)

/-- `memfile_free` (memoryfile.c:149-161): no-op at offset `0`;
otherwise overlay a free node on the allocation header at
`offset - 8` (u64 subtraction) and push it onto the free list.
`free_block->size = alloc->size` stores the word already there
(the two structs alias their first field). -/
def memfile_free (mf : Memfile) (offset : Nat) : Memfile :=
  if offset = 0 then mf
  else
    let alloc_offset := u64sub offset 8
    let m1 := upd mf.mem alloc_offset (mf.mem alloc_offset)
    let m2 := upd m1 (alloc_offset + 8) mf.free_list_head
    { mf with mem := m2, free_list_head := alloc_offset }

/-- Offset of the first block of a block list, `0` when empty (matches
the `blocks[i + 1].offset : 0` successor computation and the
`free_list_head = blocks[0].offset` assignment of `memfile_coalesce`). -/
def headOff : List (Nat × Nat) → Nat
  | [] => 0
  | b :: _ => b.1

/-- The walk the C code performs over the free list (the counting and
collecting loops of `memfile_coalesce`, memoryfile.c:171-190): follow
`next` links from `o`, recording `(offset, size)` pairs, until offset
`0`.  `none` means the chain did not reach `0` within `fuel` steps. -/
def walkMem (m : Nat → Nat) : Nat → Nat → Option (List (Nat × Nat))
  | fuel, o =>
    if o = 0 then some []
    else
      match fuel with
      | 0 => none
      | fuel + 1 => (walkMem m fuel (m (o + 8))).map fun l => (o, m o) :: l

/-- One step state of the merge sweep of `memfile_coalesce`
(memoryfile.c:205-217): `cur` is `blocks[write_idx - 1]`, the last
block written out; each incoming block either extends it (when flush
with it; `size` addition is u64) or is emitted and becomes the new
`cur`. -/
def mergeLoop (cur : Nat × Nat) : List (Nat × Nat) → List (Nat × Nat)
  | [] => [cur]
  | b :: rest =>
    if cur.1 + cur.2 = b.1 then mergeLoop (cur.1, u64add cur.2 b.2) rest
    else cur :: mergeLoop b rest

/-- The merge sweep over the whole sorted block array: the first block
is written unconditionally (`write_idx = 0`), then the sweep runs. -/
def mergeAdjacent : List (Nat × Nat) → List (Nat × Nat)
  | [] => []
  | b :: rest => mergeLoop b rest

/-- The rebuild loop of `memfile_coalesce` (memoryfile.c:219-225): store
each surviving block's `size` and `next` (the following block's offset,
`0` for the last). -/
def writeBlocks (m : Nat → Nat) : List (Nat × Nat) → Nat → Nat
  | [] => m
  | (o, s) :: rest => writeBlocks (upd (upd m o s) (o + 8) (headOff rest)) rest

/-- State update of the rebuild phase: `free_list_head = blocks[0].offset`
plus the node stores (the C code only reaches this with a non-empty
array). -/
def rebuildList (mf : Memfile) (blocks : List (Nat × Nat)) : Memfile :=
  { mf with free_list_head := headOff blocks, mem := writeBlocks mf.mem blocks }

/-- Comparison used by the insertion sort of `memfile_coalesce`
(memoryfile.c:192-203): order blocks by offset. -/
abbrev leOff (a b : Nat × Nat) : Prop := a.1 ≤ b.1

instance : IsTotal (Nat × Nat) leOff := ⟨fun a b => Nat.le_total a.1 b.1⟩

instance : IsTrans (Nat × Nat) leOff := ⟨fun _ _ _ h1 h2 => Nat.le_trans h1 h2⟩

/-- `memfile_coalesce` (memoryfile.c:167-228): return early on an empty
free list or fewer than two nodes; otherwise collect the nodes, sort
them by offset (the C insertion sort; block offsets are distinct on any
well-formed list, so the stable sorts agree), merge adjacent blocks and
rebuild the list in ascending offset order.  A walk that does not
terminate within `fuel` models the C loop never reaching the rebuild. -/
def memfile_coalesce (mf : Memfile) (fuel : Nat) : Memfile :=
  if mf.free_list_head = 0 then mf
  else
    match walkMem mf.mem fuel mf.free_list_head with
    | none => mf
    | some blocks =>
      if blocks.length < 2 then mf
      else rebuildList mf (mergeAdjacent (List.insertionSort leOff blocks))

/-- The initial size adjustment of the fresh-creation path of
`memfile_open` (memoryfile.c:277-279): `sizeof(memfile_header_t) = 32`,
so sizes below `32 + 64 = 96` are replaced by `4096`. -/
def freshSize (initial_size : Nat) : Nat :=
  if initial_size < 32 + 64 then 4096 else initial_size

/-- The state built by the fresh-creation path of `memfile_open`
(memoryfile.c:274-297) when every step succeeds: file truncated to
`freshSize initial_size`, mapped fully (a fresh file reads as zeros),
header initialised. -/
def memfile_open_fresh (initial_size : Nat) : Memfile :=
  { magic := 0x4D454D46
    version := 1
    file_size := freshSize initial_size
    allocated := 32
    free_list_head := 0
    mmap_size := freshSize initial_size
    mem := fun _ => 0 }

/-- Outcome of the fresh-creation path of `memfile_open` for a given
pattern of syscall results: whether the open succeeds, and whether the
just-created file was unlinked before returning. -/
structure FreshOpenResult where
  success : Bool
  unlinked : Bool
deriving DecidableEq

/-- Failure cascade of the fresh-creation path of `memfile_open`
(memoryfile.c:274-297), after `open(O_RDWR | O_CREAT)` has created the
file: a failing `ftruncate` jumps to `fail_fd` (close, free, return
NULL) without `unlink`; a failing `mmap` calls `unlink(path)` first;
otherwise the open succeeds. -/
def memfile_open_fresh_steps (ftruncate_ok mmap_ok : Bool) : FreshOpenResult :=
  if ftruncate_ok = false then { success := false, unlinked := false }
  else if mmap_ok = false then { success := false, unlinked := true }
  else { success := true, unlinked := false }

/-! ### Derived notions used to state free-list properties -/

/-- Block `a` ends at or before block `b` starts. -/
abbrev gapLe (a b : Nat × Nat) : Prop := a.1 + a.2 ≤ b.1

/-- Block `a` ends strictly before block `b` starts (a gap separates
them, so they cannot be merged). -/
abbrev gapLt (a b : Nat × Nat) : Prop := a.1 + a.2 < b.1

/-- Two blocks occupy disjoint byte ranges. -/
abbrev disjointBlocks (a b : Nat × Nat) : Prop := gapLe a b ∨ gapLe b a

/-- Offsets ascend by at least 16, the footprint of a free node; this is
what makes the rebuild's node stores non-overlapping. -/
abbrev sepBlocks (a b : Nat × Nat) : Prop := a.1 + 16 ≤ b.1

/-- Strict ascent of block offsets. -/
abbrev ltOff (a b : Nat × Nat) : Prop := a.1 < b.1

instance : IsTrans (Nat × Nat) ltOff := ⟨fun _ _ _ h1 h2 => Nat.lt_trans h1 h2⟩

instance : IsTrans (Nat × Nat) sepBlocks :=
  ⟨fun _ b _ h1 h2 => Nat.le_trans h1 (Nat.le_trans (Nat.le_add_right b.1 16) h2)⟩

/-- The word map `m` stores exactly the free list `l`: each node's
`size` word holds its size, its `next` word holds the following node's
offset (`0` after the last node). -/
def WellLinked (m : Nat → Nat) : List (Nat × Nat) → Prop
  | [] => True
  | (o, s) :: rest => m o = s ∧ m (o + 8) = headOff rest ∧ WellLinked m rest

/-! ### Concrete states used by counterexamples and witnesses -/

/-- A freshly initialised 4096-byte file (the state `memfile_open`
produces). -/
def baseState : Memfile :=
  { magic := 0x4D454D46, version := 1, file_size := 4096, allocated := 32,
    free_list_head := 0, mmap_size := 4096, mem := fun _ => 0 }

/-- A nearly full file: high-water mark at 4000 of 4096 bytes. -/
def growState : Memfile := { baseState with allocated := 4000 }

/-- One live 16-byte block at offset 32 (caller offset 40). -/
def reuseState : Memfile :=
  { baseState with mem := fun x => if x = 32 then 16 else 0, allocated := 48 }

/-- Two adjacent free blocks of 16 bytes at offsets 32 and 48. -/
def coalState : Memfile :=
  { baseState with
    allocated := 64
    free_list_head := 32
    mem := fun x => if x = 32 then 16 else if x = 40 then 48 else if x = 48 then 16 else 0 }

/-- Two non-adjacent free blocks of 16 bytes at offsets 32 and 64. -/
def coalStateB : Memfile :=
  { baseState with
    allocated := 96
    free_list_head := 32
    mem := fun x => if x = 32 then 16 else if x = 40 then 64 else if x = 64 then 16 else 0 }

/-! ### Basic lemmas about the model -/

theorem upd_same (m : Nat → Nat) (a v : Nat) : upd m a v a = v := by simp [upd]

theorem upd_ne (m : Nat → Nat) (a v x : Nat) (h : x ≠ a) : upd m a v x = m x := by
  simp [upd, h]

theorem u64add_eq (a b : Nat) (h : a + b < U64) : u64add a b = a + b :=
  Nat.mod_eq_of_lt h

theorem u64sub_eq (a b : Nat) (hb : b ≤ a) (ha : a < U64) (hbU : b < U64) :
    u64sub a b = a - b := by
  unfold u64sub U64 at *
  rw [Nat.mod_eq_of_lt hbU]
  have h1 : a + (2 ^ 64 - b) = (a - b) + 2 ^ 64 := by omega
  rw [h1, Nat.add_mod_right, Nat.mod_eq_of_lt (by omega)]

theorem totalSize_eq (size : Nat) (h : size + 15 < U64) :
    totalSize size = (size + 15) / 8 * 8 := by
  unfold totalSize
  rw [u64add_eq _ _ (by omega), Nat.mod_eq_of_lt (by omega)]

theorem totalSize_of_mult8 (s : Nat) (h8 : 8 ≤ s) (hmod : s % 8 = 0) (hU : s + 16 < U64) :
    totalSize (s - 8) = s := by
  rw [totalSize_eq _ (by omega)]
  omega

theorem upd_self (m : Nat → Nat) (a : Nat) : upd m a (m a) = m := by
  funext x
  by_cases h : x = a <;> simp [upd, h]

/-! ### Lemmas about the free-list walk -/

theorem walkMem_zero_off (m : Nat → Nat) (fuel : Nat) : walkMem m fuel 0 = some [] := by
  cases fuel <;> rfl

theorem walkMem_fuel_zero (m : Nat → Nat) (o : Nat) (h : o ≠ 0) : walkMem m 0 o = none := by
  show (if o = 0 then some [] else none : Option (List (Nat × Nat))) = none
  rw [if_neg h]

theorem walkMem_succ_off (m : Nat → Nat) (fuel o : Nat) (h : o ≠ 0) :
    walkMem m (fuel + 1) o =
      (walkMem m fuel (m (o + 8))).map fun l => (o, m o) :: l := by
  show (if o = 0 then some []
      else (walkMem m fuel (m (o + 8))).map fun l => (o, m o) :: l) =
    (walkMem m fuel (m (o + 8))).map fun l => (o, m o) :: l
  rw [if_neg h]

theorem headOff_head? (l : List (Nat × Nat)) : ∀ y ∈ l.head?, y.1 = headOff l := by
  cases l with
  | nil => simp
  | cons b tl =>
    intro y hy
    obtain rfl : b = y := by simpa [Option.mem_def] using hy
    rfl

theorem walkMem_sound (m : Nat → Nat) :
    ∀ fuel o l, walkMem m fuel o = some l →
      WellLinked m l ∧ headOff l = o ∧ (∀ b ∈ l, b.1 ≠ 0) ∧ l.length ≤ fuel := by
  intro fuel
  induction fuel with
  | zero =>
    intro o l h
    by_cases ho : o = 0
    · subst ho
      rw [walkMem_zero_off] at h
      obtain rfl : ([] : List (Nat × Nat)) = l := Option.some.inj h
      exact ⟨trivial, rfl, by simp, by simp⟩
    · rw [walkMem_fuel_zero m o ho] at h
      exact absurd h (by simp)
  | succ n ih =>
    intro o l h
    by_cases ho : o = 0
    · subst ho
      rw [walkMem_zero_off] at h
      obtain rfl : ([] : List (Nat × Nat)) = l := Option.some.inj h
      exact ⟨trivial, rfl, by simp, by simp⟩
    · rw [walkMem_succ_off m n o ho] at h
      cases hrec : walkMem m n (m (o + 8)) with
      | none => rw [hrec] at h; exact absurd h (by simp)
      | some tl =>
        rw [hrec] at h
        simp only [Option.map_some'] at h
        obtain rfl : (o, m o) :: tl = l := Option.some.inj h
        obtain ⟨hWL, hho, hne, hlen⟩ := ih (m (o + 8)) tl hrec
        refine ⟨⟨rfl, hho.symm, hWL⟩, rfl, ?_, by simpa using hlen⟩
        intro b hb
        rcases List.mem_cons.mp hb with rfl | hb2
        · exact ho
        · exact hne b hb2

theorem walkMem_wellLinked (m : Nat → Nat) (fuel o : Nat) (l : List (Nat × Nat))
    (h : walkMem m fuel o = some l) : WellLinked m l :=
  (walkMem_sound m fuel o l h).1

theorem walkMem_headOff (m : Nat → Nat) (fuel o : Nat) (l : List (Nat × Nat))
    (h : walkMem m fuel o = some l) : headOff l = o :=
  (walkMem_sound m fuel o l h).2.1

theorem walkMem_ne_zero (m : Nat → Nat) (fuel o : Nat) (l : List (Nat × Nat))
    (h : walkMem m fuel o = some l) : ∀ b ∈ l, b.1 ≠ 0 :=
  (walkMem_sound m fuel o l h).2.2.1

theorem walkMem_length (m : Nat → Nat) (fuel o : Nat) (l : List (Nat × Nat))
    (h : walkMem m fuel o = some l) : l.length ≤ fuel :=
  (walkMem_sound m fuel o l h).2.2.2

theorem walkMem_mono (m : Nat → Nat) :
    ∀ fuel fuel2 o l, walkMem m fuel o = some l → fuel ≤ fuel2 →
      walkMem m fuel2 o = some l := by
  intro fuel
  induction fuel with
  | zero =>
    intro fuel2 o l h _
    by_cases ho : o = 0
    · subst ho
      rw [walkMem_zero_off] at h
      rw [walkMem_zero_off]
      exact h
    · rw [walkMem_fuel_zero m o ho] at h
      exact absurd h (by simp)
  | succ n ih =>
    intro fuel2 o l h hle
    by_cases ho : o = 0
    · subst ho
      rw [walkMem_zero_off] at h
      rw [walkMem_zero_off]
      exact h
    · obtain ⟨k, rfl⟩ : ∃ k, fuel2 = k + 1 := ⟨fuel2 - 1, by omega⟩
      rw [walkMem_succ_off m n o ho] at h
      rw [walkMem_succ_off m k o ho]
      cases hrec : walkMem m n (m (o + 8)) with
      | none => rw [hrec] at h; exact absurd h (by simp)
      | some tl =>
        rw [hrec] at h
        rw [ih k (m (o + 8)) tl hrec (by omega)]
        exact h

theorem wellLinked_walkMem (m : Nat → Nat) :
    ∀ l, WellLinked m l → (∀ b ∈ l, b.1 ≠ 0) →
      walkMem m l.length (headOff l) = some l := by
  intro l
  induction l with
  | nil => intro _ _; exact walkMem_zero_off m 0
  | cons b tl ih =>
    intro hWL hne
    obtain ⟨h1, h2, h3⟩ := hWL
    have ho : b.1 ≠ 0 := hne b (List.mem_cons_self _ _)
    show walkMem m (tl.length + 1) b.1 = some (b :: tl)
    rw [walkMem_succ_off m tl.length b.1 ho, h2,
      ih h3 (fun c hc => hne c (List.mem_cons_of_mem _ hc))]
    simp only [Option.map_some']
    rw [h1]

theorem wellLinked_last (m : Nat → Nat) :
    ∀ l, WellLinked m l → ∀ b ∈ l.getLast?, m (b.1 + 8) = 0 := by
  intro l
  induction l with
  | nil => simp
  | cons x tl ih =>
    intro hWL b hb
    obtain ⟨h1, h2, h3⟩ := hWL
    cases tl with
    | nil =>
      obtain rfl : x = b := by simpa [Option.mem_def] using hb
      simpa [headOff] using h2
    | cons y tl2 =>
      rw [List.getLast?_cons_cons] at hb
      exact ih h3 b hb

/-! ### Lemmas about the rebuild phase -/

theorem writeBlocks_lt (m : Nat → Nat) :
    ∀ bs x, (∀ b ∈ bs, x < b.1) → writeBlocks m bs x = m x := by
  intro bs
  induction bs generalizing m with
  | nil => intro x _; rfl
  | cons b rest ih =>
    intro x hx
    obtain ⟨o, s⟩ := b
    have ho : x < o := hx (o, s) (List.mem_cons_self _ _)
    show writeBlocks (upd (upd m o s) (o + 8) (headOff rest)) rest x = m x
    rw [ih _ x (fun c hc => hx c (List.mem_cons_of_mem _ hc)),
      upd_ne _ _ _ _ (by omega), upd_ne _ _ _ _ (by omega)]

theorem chain_sep_rest (bs : List (Nat × Nat)) (o : Nat) (s : Nat)
    (h : List.Chain' sepBlocks ((o, s) :: bs)) : ∀ b ∈ bs, o + 16 ≤ b.1 := by
  have hpw := List.chain'_iff_pairwise.mp h
  rw [List.pairwise_cons] at hpw
  exact fun b hb => hpw.1 b hb

theorem writeBlocks_wellLinked (m : Nat → Nat) :
    ∀ bs, List.Chain' sepBlocks bs → WellLinked (writeBlocks m bs) bs := by
  intro bs
  induction bs generalizing m with
  | nil => intro _; trivial
  | cons b rest ih =>
    intro hsep
    obtain ⟨o, s⟩ := b
    have hrest : ∀ c ∈ rest, o + 16 ≤ c.1 := chain_sep_rest rest o s hsep
    have htl : List.Chain' sepBlocks rest := (List.chain'_cons'.mp hsep).2
    refine ⟨?_, ?_, ih _ htl⟩
    · show writeBlocks (upd (upd m o s) (o + 8) (headOff rest)) rest o = s
      rw [writeBlocks_lt _ _ _ (fun c hc => by have := hrest c hc; omega),
        upd_ne _ _ _ _ (by omega), upd_same]
    · show writeBlocks (upd (upd m o s) (o + 8) (headOff rest)) rest (o + 8) = headOff rest
      rw [writeBlocks_lt _ _ _ (fun c hc => by have := hrest c hc; omega), upd_same]

theorem writeBlocks_id (m : Nat → Nat) :
    ∀ bs, WellLinked m bs → writeBlocks m bs = m := by
  intro bs
  induction bs with
  | nil => intro _; rfl
  | cons b rest ih =>
    intro hWL
    obtain ⟨h1, h2, h3⟩ := hWL
    show writeBlocks (upd (upd m b.1 b.2) (b.1 + 8) (headOff rest)) rest = m
    rw [← h1, upd_self, ← h2, upd_self]
    exact ih h3

/-! ### Lemmas about the merge sweep -/

theorem mergeLoop_spec :
    ∀ (rest : List (Nat × Nat)) (cur : Nat × Nat),
      List.Chain' gapLe (cur :: rest) →
      (∀ b ∈ cur :: rest, 16 ≤ b.2) → (∀ b ∈ cur :: rest, b.1 + b.2 < U64) →
      List.Chain' gapLt (mergeLoop cur rest) ∧
      (∀ b ∈ mergeLoop cur rest, 16 ≤ b.2) ∧
      (∀ b ∈ mergeLoop cur rest, b.1 + b.2 < U64) ∧
      (mergeLoop cur rest).length ≤ rest.length + 1 ∧
      headOff (mergeLoop cur rest) = cur.1 ∧
      (∀ p ∈ mergeLoop cur rest, p.1 = cur.1 ∨ ∃ c ∈ rest, c.1 = p.1) := by
  intro rest
  induction rest with
  | nil =>
    intro cur _ hs he
    rw [mergeLoop]
    refine ⟨List.chain'_singleton cur, ?_, ?_, by simp, rfl, ?_⟩
    · intro c hcm
      obtain rfl := List.mem_singleton.mp hcm
      exact hs c (by simp)
    · intro c hcm
      obtain rfl := List.mem_singleton.mp hcm
      exact he c (by simp)
    · intro p hp
      obtain rfl := List.mem_singleton.mp hp
      exact Or.inl rfl
  | cons b rest ih =>
    intro cur hc hs he
    rw [mergeLoop]
    by_cases hab : cur.1 + cur.2 = b.1
    · rw [if_pos hab]
      have hbU : b.1 + b.2 < U64 := he b (by simp)
      have hadd : u64add cur.2 b.2 = cur.2 + b.2 := u64add_eq _ _ (by omega)
      rw [List.chain'_cons'] at hc
      have hcb := hc.2
      rw [List.chain'_cons'] at hcb
      have hc2 : List.Chain' gapLe ((cur.1, u64add cur.2 b.2) :: rest) := by
        rw [List.chain'_cons']
        refine ⟨?_, hcb.2⟩
        intro y hy
        have hby := hcb.1 y hy
        show cur.1 + u64add cur.2 b.2 ≤ y.1
        rw [hadd]
        omega
      have hs2 : ∀ c ∈ (cur.1, u64add cur.2 b.2) :: rest, 16 ≤ c.2 := by
        intro c hcm
        rcases List.mem_cons.mp hcm with rfl | hcm2
        · show 16 ≤ u64add cur.2 b.2
          rw [hadd]
          have := hs cur (by simp)
          omega
        · exact hs c (by simp [hcm2])
      have he2 : ∀ c ∈ (cur.1, u64add cur.2 b.2) :: rest, c.1 + c.2 < U64 := by
        intro c hcm
        rcases List.mem_cons.mp hcm with rfl | hcm2
        · show cur.1 + u64add cur.2 b.2 < U64
          rw [hadd]
          omega
        · exact he c (by simp [hcm2])
      obtain ⟨i1, i2, i3, i4, i5, i6⟩ := ih (cur.1, u64add cur.2 b.2) hc2 hs2 he2
      refine ⟨i1, i2, i3, ?_, by rw [i5], ?_⟩
      · simp only [List.length_cons]
        omega
      · intro p hp
        rcases i6 p hp with h | ⟨c, hc1, hc2⟩
        · exact Or.inl h
        · exact Or.inr ⟨c, by simp [hc1], hc2⟩
    · rw [if_neg hab]
      rw [List.chain'_cons'] at hc
      have hguard : gapLe cur b := hc.1 b (by simp)
      have hlt : gapLt cur b := Nat.lt_of_le_of_ne hguard hab
      obtain ⟨i1, i2, i3, i4, i5, i6⟩ :=
        ih b hc.2 (fun c hcm => hs c (by simp [hcm])) (fun c hcm => he c (by simp [hcm]))
      refine ⟨?_, ?_, ?_, ?_, rfl, ?_⟩
      · rw [List.chain'_cons']
        refine ⟨?_, i1⟩
        intro y hy
        have hy1 : y.1 = headOff (mergeLoop b rest) := headOff_head? _ y hy
        show cur.1 + cur.2 < y.1
        rw [hy1, i5]
        exact hlt
      · intro c hcm
        rcases List.mem_cons.mp hcm with rfl | hcm2
        · exact hs c (by simp)
        · exact i2 c hcm2
      · intro c hcm
        rcases List.mem_cons.mp hcm with rfl | hcm2
        · exact he c (by simp)
        · exact i3 c hcm2
      · simp only [List.length_cons] at i4 ⊢
        omega
      · intro p hp
        rcases List.mem_cons.mp hp with rfl | hp2
        · exact Or.inl rfl
        · rcases i6 p hp2 with h | ⟨c, hc1, hc2⟩
          · exact Or.inr ⟨b, by simp, h.symm⟩
          · exact Or.inr ⟨c, by simp [hc1], hc2⟩

theorem mergeAdjacent_spec :
    ∀ l : List (Nat × Nat), List.Chain' gapLe l →
      (∀ b ∈ l, 16 ≤ b.2) → (∀ b ∈ l, b.1 + b.2 < U64) →
      List.Chain' gapLt (mergeAdjacent l) ∧
      (∀ b ∈ mergeAdjacent l, 16 ≤ b.2) ∧
      (∀ b ∈ mergeAdjacent l, b.1 + b.2 < U64) ∧
      (mergeAdjacent l).length ≤ l.length ∧
      headOff (mergeAdjacent l) = headOff l ∧
      (∀ b ∈ mergeAdjacent l, ∃ c ∈ l, c.1 = b.1) := by
  intro l hc hs he
  cases l with
  | nil =>
    rw [mergeAdjacent]
    exact ⟨List.chain'_nil, by simp, by simp, by simp, rfl, by simp⟩
  | cons b rest =>
    obtain ⟨m1, m2, m3, m4, m5, m6⟩ := mergeLoop_spec rest b hc hs he
    rw [mergeAdjacent]
    refine ⟨m1, m2, m3, by simpa using m4, by rw [m5]; rfl, ?_⟩
    intro p hp
    rcases m6 p hp with h | ⟨c, hc1, hc2⟩
    · exact ⟨b, by simp, h.symm⟩
    · exact ⟨c, by simp [hc1], hc2⟩

theorem mergeLoop_of_gapLt :
    ∀ (rest : List (Nat × Nat)) (cur : Nat × Nat),
      List.Chain' gapLt (cur :: rest) → mergeLoop cur rest = cur :: rest := by
  intro rest
  induction rest with
  | nil => intro cur _; rfl
  | cons b rest ih =>
    intro cur hc
    rw [List.chain'_cons] at hc
    rw [mergeLoop, if_neg (Nat.ne_of_lt hc.1), ih b hc.2]

theorem mergeAdjacent_of_gapLt :
    ∀ l : List (Nat × Nat), List.Chain' gapLt l → mergeAdjacent l = l := by
  intro l hc
  cases l with
  | nil => rfl
  | cons b rest =>
    rw [mergeAdjacent]
    exact mergeLoop_of_gapLt rest b hc

/-! ### Chain manipulation lemmas -/

theorem chain_gapLt_sep (lc : List (Nat × Nat)) (hc : List.Chain' gapLt lc)
    (hs : ∀ b ∈ lc, 16 ≤ b.2) : List.Chain' sepBlocks lc := by
  induction lc with
  | nil => exact List.chain'_nil
  | cons a tl ih =>
    rw [List.chain'_cons'] at hc ⊢
    refine ⟨?_, ih hc.2 (fun b hb => hs b (List.mem_cons_of_mem _ hb))⟩
    intro y hy
    have := hc.1 y hy
    have := hs a (by simp)
    show a.1 + 16 ≤ y.1
    omega

theorem sorted_disjoint_gapLe :
    ∀ s : List (Nat × Nat), List.Pairwise leOff s → List.Pairwise disjointBlocks s →
      (∀ b ∈ s, 1 ≤ b.2) → List.Chain' gapLe s := by
  intro s
  induction s with
  | nil => intro _ _ _; exact List.chain'_nil
  | cons a tl ih =>
    intro hle hdj hsz
    rw [List.pairwise_cons] at hle hdj
    rw [List.chain'_cons']
    refine ⟨?_, ih hle.2 hdj.2 (fun b hb => hsz b (List.mem_cons_of_mem _ hb))⟩
    intro y hy
    have hymem : y ∈ tl := List.mem_of_mem_head? hy
    have h1 := hle.1 y hymem
    have h3 := hsz y (List.mem_cons_of_mem _ hymem)
    rcases hdj.1 y hymem with h2 | h2
    · exact h2
    · show a.1 + a.2 ≤ y.1
      omega

theorem chain_gapLt_ascending (lc : List (Nat × Nat)) (hc : List.Chain' gapLt lc) :
    List.Chain' ltOff lc :=
  hc.imp fun a _ h => Nat.lt_of_le_of_lt (Nat.le_add_right a.1 a.2) h

theorem chain_lt_head_min (lc : List (Nat × Nat)) (h : List.Chain' ltOff lc) :
    ∀ b ∈ lc, headOff lc ≤ b.1 := by
  cases lc with
  | nil => simp
  | cons x tl =>
    intro b hb
    show x.1 ≤ b.1
    rcases List.mem_cons.mp hb with rfl | hb2
    · exact Nat.le_refl _
    · have hpw := List.chain'_iff_pairwise.mp h
      rw [List.pairwise_cons] at hpw
      exact Nat.le_of_lt (hpw.1 b hb2)

/-! ### The coalesce specification -/

/-- Master lemma: on a well-formed free list (terminating walk, pairwise
disjoint blocks, sizes at least 16, blocks inside the u64 offset space)
`memfile_coalesce` leaves a free list whose walk terminates, whose
consecutive blocks are separated by gaps, whose sizes are still at
least 16, and whose head is the offset stored in `free_list_head`. -/
theorem coalesce_spec (mf : Memfile) (fuel : Nat) (l : List (Nat × Nat))
    (hw : walkMem mf.mem fuel mf.free_list_head = some l)
    (hd : l.Pairwise disjointBlocks)
    (hs : ∀ b ∈ l, 16 ≤ b.2)
    (he : ∀ b ∈ l, b.1 + b.2 < U64) :
    ∃ lc : List (Nat × Nat),
      walkMem (memfile_coalesce mf fuel).mem fuel (memfile_coalesce mf fuel).free_list_head
        = some lc ∧
      List.Chain' gapLt lc ∧
      (∀ b ∈ lc, 16 ≤ b.2) ∧
      (memfile_coalesce mf fuel).free_list_head = headOff lc := by
  by_cases h0 : mf.free_list_head = 0
  · have hc : memfile_coalesce mf fuel = mf := by simp [memfile_coalesce, h0]
    have hl : l = [] := by
      rw [h0, walkMem_zero_off] at hw
      exact (Option.some.inj hw).symm
    subst hl
    exact ⟨[], by rw [hc]; exact hw, List.chain'_nil, by simp, by rw [hc, h0]; rfl⟩
  · have hcoal : memfile_coalesce mf fuel =
        if l.length < 2 then mf
        else rebuildList mf (mergeAdjacent (List.insertionSort leOff l)) := by
      simp only [memfile_coalesce, if_neg h0, hw]
    by_cases hlen : l.length < 2
    · have hc : memfile_coalesce mf fuel = mf := by rw [hcoal, if_pos hlen]
      refine ⟨l, by rw [hc]; exact hw, ?_, hs, by rw [hc]; exact (walkMem_headOff _ _ _ _ hw).symm⟩
      rcases l with _ | ⟨x, _ | ⟨y, tl⟩⟩
      · exact List.chain'_nil
      · exact List.chain'_singleton x
      · exact absurd hlen (by simp only [List.length_cons]; omega)
    · have hco : memfile_coalesce mf fuel =
          rebuildList mf (mergeAdjacent (List.insertionSort leOff l)) := by
        rw [hcoal, if_neg hlen]
      have hperm : List.Perm (List.insertionSort leOff l) l := List.perm_insertionSort leOff l
      have hsort : List.Sorted leOff (List.insertionSort leOff l) :=
        List.sorted_insertionSort leOff l
      have hd2 : (List.insertionSort leOff l).Pairwise disjointBlocks :=
        (List.Perm.pairwise_iff (fun {a b} h => Or.symm h) hperm).mpr hd
      have hs2 : ∀ b ∈ List.insertionSort leOff l, 16 ≤ b.2 :=
        fun b hb => hs b (hperm.mem_iff.mp hb)
      have he2 : ∀ b ∈ List.insertionSort leOff l, b.1 + b.2 < U64 :=
        fun b hb => he b (hperm.mem_iff.mp hb)
      have hgaple : List.Chain' gapLe (List.insertionSort leOff l) :=
        sorted_disjoint_gapLe _ hsort hd2 (fun b hb => by have := hs2 b hb; omega)
      obtain ⟨hmc, hms, hme, hml, hmh, hmo⟩ := mergeAdjacent_spec _ hgaple hs2 he2
      have hne0 : ∀ b ∈ l, b.1 ≠ 0 := walkMem_ne_zero _ _ _ _ hw
      have hmne0 : ∀ b ∈ mergeAdjacent (List.insertionSort leOff l), b.1 ≠ 0 := by
        intro b hb
        obtain ⟨c, hc1, hc2⟩ := hmo b hb
        rw [← hc2]
        exact hne0 c (hperm.mem_iff.mp hc1)
      have hsep : List.Chain' sepBlocks (mergeAdjacent (List.insertionSort leOff l)) :=
        chain_gapLt_sep _ hmc hms
      have hWL : WellLinked (writeBlocks mf.mem (mergeAdjacent (List.insertionSort leOff l)))
          (mergeAdjacent (List.insertionSort leOff l)) :=
        writeBlocks_wellLinked mf.mem _ hsep
      have hwalk0 := wellLinked_walkMem _ _ hWL hmne0
      have hlenle : (mergeAdjacent (List.insertionSort leOff l)).length ≤ fuel := by
        have h1 := hperm.length_eq
        have h2 := walkMem_length _ _ _ _ hw
        omega
      have hwalk := walkMem_mono _ _ fuel _ _ hwalk0 hlenle
      refine ⟨mergeAdjacent (List.insertionSort leOff l), ?_, hmc, hms, ?_⟩
      · rw [hco]
        exact hwalk
      · rw [hco]
        rfl

/-- A state whose free list is already gap-separated in ascending order
is a fixed point of `memfile_coalesce`. -/
theorem coalesce_fixed (mf : Memfile) (fuel : Nat) (l : List (Nat × Nat))
    (hw : walkMem mf.mem fuel mf.free_list_head = some l)
    (hchain : List.Chain' gapLt l) :
    memfile_coalesce mf fuel = mf := by
  by_cases h0 : mf.free_list_head = 0
  · simp [memfile_coalesce, h0]
  · have hcoal : memfile_coalesce mf fuel =
        if l.length < 2 then mf
        else rebuildList mf (mergeAdjacent (List.insertionSort leOff l)) := by
      simp only [memfile_coalesce, if_neg h0, hw]
    by_cases hlen : l.length < 2
    · rw [hcoal, if_pos hlen]
    · rw [hcoal, if_neg hlen]
      have hsorted : List.Sorted leOff l := by
        have hle : List.Chain' leOff l :=
          hchain.imp fun a b h => Nat.le_of_lt (Nat.lt_of_le_of_lt (Nat.le_add_right a.1 a.2) h)
        exact List.chain'_iff_pairwise.mp hle
      rw [hsorted.insertionSort_eq, mergeAdjacent_of_gapLt l hchain]
      have hWL : WellLinked mf.mem l := walkMem_wellLinked _ _ _ _ hw
      have hho : headOff l = mf.free_list_head := walkMem_headOff _ _ _ _ hw
      unfold rebuildList
      rw [writeBlocks_id mf.mem l hWL, hho]

/-! ### Claim C1 -/

/-- C1: the code does not enforce `total ≥ 16`.  `memfile_alloc` with
`size = 0` computes `total_size = round_up_to_8(0 + 8) = 8` and stores
`8` in the allocation header of the block it bump-allocates at offset
32 of a fresh file, so a block size below 16 (too small for a free
node) is stored.  This evaluates the code at the failing input. -/
theorem alloc_size_zero_stores_block_of_8 :
    totalSize 0 = 8 ∧
    (memfile_alloc (memfile_open_fresh 4096) 0 1).1.mem 32 = 8 ∧
    ¬ 16 ≤ (memfile_alloc (memfile_open_fresh 4096) 0 1).1.mem 32 := by
  refine ⟨by decide, by decide, by decide⟩

/-! ### Claim C2 -/

/-- C2 counterexample: with `mapped_size = file_size = 4096`,
`allocated = 4000`, `needed = 97` the grow branch is taken
(`4000 + 97 > 4096`) and the code doubles to `8192`, while the claimed
formula `max(mapped_size * 2, allocated + needed + 4096)` yields
`8193`. -/
theorem ensure_space_not_claimed_max :
    4096 < 4000 + 97 ∧
    (memfile_ensure_space growState 97).mmap_size = 8192 ∧
    (memfile_ensure_space growState 97).file_size = 8192 ∧
    max (4096 * 2) (4000 + 97 + 4096) = 8193 := by
  refine ⟨by decide, by decide, by decide, by decide⟩

/-- C2 (amended): when `allocated + needed ≤ file_size` nothing changes;
otherwise the file grows to `new_size = mapped_size * 2` if that is at
least `allocated + needed`, and to `allocated + needed + 4096`
otherwise (not to the max of the two); the new size is written to both
`mapped_size` and the header's `file_size`, and it always covers
`allocated + needed`. -/
theorem ensure_space_spec (mf : Memfile) (needed : Nat)
    (hm : mf.mmap_size * 2 < U64) (ha : mf.allocated + needed + 4096 < U64) :
    (mf.allocated + needed ≤ mf.file_size → memfile_ensure_space mf needed = mf) ∧
    (mf.file_size < mf.allocated + needed →
      memfile_ensure_space mf needed =
        { mf with
            mmap_size :=
              if mf.mmap_size * 2 < mf.allocated + needed
              then mf.allocated + needed + 4096 else mf.mmap_size * 2,
            file_size :=
              if mf.mmap_size * 2 < mf.allocated + needed
              then mf.allocated + needed + 4096 else mf.mmap_size * 2 } ∧
      mf.allocated + needed ≤ (memfile_ensure_space mf needed).mmap_size) := by
  have hadd : u64add mf.allocated needed = mf.allocated + needed :=
    u64add_eq _ _ (by omega)
  constructor
  · intro h
    unfold memfile_ensure_space
    rw [hadd, if_pos h]
  · intro h
    have hm2 : mf.mmap_size * 2 % U64 = mf.mmap_size * 2 := Nat.mod_eq_of_lt hm
    have hadd2 : u64add (mf.allocated + needed) 4096 = mf.allocated + needed + 4096 :=
      u64add_eq _ _ (by omega)
    simp only [memfile_ensure_space, memfile_remap, hadd, hadd2, hm2,
      if_neg (by omega : ¬ mf.allocated + needed ≤ mf.file_size)]
    by_cases hc : mf.mmap_size * 2 < mf.allocated + needed
    · simp only [if_pos hc]
      exact ⟨by trivial, by omega⟩
    · simp only [if_neg hc]
      exact ⟨by trivial, by omega⟩

/-- Witness for `ensure_space_spec` at a concrete state. -/
theorem ensure_space_spec_witness :
    memfile_ensure_space growState 200 =
      { growState with mmap_size := 8192, file_size := 8192 } ∧
    4000 + 200 ≤ (memfile_ensure_space growState 200).mmap_size := by
  have h := (ensure_space_spec growState 200 (by decide) (by decide)).2 (by decide)
  exact ⟨h.1, h.2⟩

/-! ### Claim C3 -/

/-- C3 counterexample.  First part: at `offset = mapped_size = 4096`,
`len = 0` the claim's condition `offset + len ≤ mapped_size ∧ offset ≠ 0`
demands success, yet both helpers fail (the pointer check rejects
`offset ≥ mapped_size`).  Second part: at `offset = 8`,
`len = 2^64 - 8` the true sum exceeds `mapped_size`, so the claimed
overflow-safe comparison demands failure, yet the u64 sum wraps to `0`
and `memfile_read` succeeds. -/
theorem read_write_bounds_cex :
    (4096 + 0 ≤ baseState.mmap_size ∧ (4096 : Nat) ≠ 0 ∧
      memfile_read baseState 4096 0 = none ∧
      (memfile_write baseState 4096 (fun _ => 0) 0).isNone = true) ∧
    (baseState.mmap_size < 8 + (U64 - 8) ∧
      (memfile_read baseState 8 (U64 - 8)).isSome = true) := by
  refine ⟨⟨by decide, by decide, by decide, by decide⟩, ⟨?_, by decide⟩⟩
  show (4096 : Nat) < 8 + (2 ^ 64 - 8)
  norm_num

/-- C3 (amended): `memfile_read` and `memfile_write` fail exactly when
the wrapping 64-bit sum `(offset + len) mod 2^64` exceeds `mapped_size`,
or `offset = 0`, or `offset ≥ mapped_size`; in every other case they
succeed. -/
theorem read_write_bounds_spec (mf : Memfile) (offset len : Nat) (buf : Nat → Nat) :
    (memfile_read mf offset len = none ↔
      (mf.mmap_size < u64add offset len ∨ offset = 0 ∨ mf.mmap_size ≤ offset)) ∧
    ((memfile_write mf offset buf len).isNone = true ↔
      (mf.mmap_size < u64add offset len ∨ offset = 0 ∨ mf.mmap_size ≤ offset)) := by
  unfold memfile_read memfile_write memfile_ptr
  by_cases h1 : mf.mmap_size < u64add offset len
  · simp [h1]
  · by_cases h2 : offset = 0 ∨ mf.mmap_size ≤ offset
    · simp [h1, h2]
    · simp [h1, h2]

/-- Witness for `read_write_bounds_spec`: a zero offset fails. -/
theorem read_write_bounds_spec_witness :
    memfile_read baseState 0 5 = none :=
  (read_write_bounds_spec baseState 0 5 (fun _ => 0)).1.mpr (Or.inr (Or.inl rfl))

/-! ### Claim C4 -/

/-- C4: after `memfile_coalesce` returns on a well-formed free list
(terminating walk, pairwise disjoint blocks, sizes at least 16, blocks
within the u64 offset space), the surviving free-list offsets are
strictly ascending along the next chain, every consecutive pair
satisfies `a.offset + a.size < b.offset`, the last node's `next` word
is 0, and `free_list_head` points at the lowest-offset surviving
block. -/
theorem coalesce_correct (mf : Memfile) (fuel : Nat) (l : List (Nat × Nat))
    (hw : walkMem mf.mem fuel mf.free_list_head = some l)
    (hd : l.Pairwise disjointBlocks)
    (hs : ∀ b ∈ l, 16 ≤ b.2)
    (he : ∀ b ∈ l, b.1 + b.2 < U64) :
    ∃ lc : List (Nat × Nat),
      walkMem (memfile_coalesce mf fuel).mem fuel (memfile_coalesce mf fuel).free_list_head
        = some lc ∧
      List.Chain' ltOff lc ∧
      List.Chain' gapLt lc ∧
      (∀ b ∈ lc.getLast?, (memfile_coalesce mf fuel).mem (b.1 + 8) = 0) ∧
      (memfile_coalesce mf fuel).free_list_head = headOff lc ∧
      (∀ b ∈ lc, headOff lc ≤ b.1) := by
  obtain ⟨lc, hwalk, hchain, hsz, hhead⟩ := coalesce_spec mf fuel l hw hd hs he
  refine ⟨lc, hwalk, chain_gapLt_ascending lc hchain, hchain, ?_, hhead, ?_⟩
  · exact wellLinked_last _ lc (walkMem_wellLinked _ _ _ _ hwalk)
  · exact chain_lt_head_min lc (chain_gapLt_ascending lc hchain)

/-- Witness for `coalesce_correct`: the two adjacent 16-byte blocks of
`coalState` merge into one 32-byte block at offset 32 with `next` 0. -/
theorem coalesce_correct_witness :
    (memfile_coalesce coalState 2).free_list_head = 32 ∧
    (memfile_coalesce coalState 2).mem 32 = 32 ∧
    (memfile_coalesce coalState 2).mem 40 = 0 := by
  obtain ⟨lc, h1, h2, h3, h4, h5, h6⟩ :=
    coalesce_correct coalState 2 [(32, 16), (48, 16)] (by decide) (by decide) (by decide)
      (by decide)
  have hdec : walkMem (memfile_coalesce coalState 2).mem 2
      (memfile_coalesce coalState 2).free_list_head = some [(32, 32)] := by decide
  rw [hdec] at h1
  obtain rfl : lc = [(32, 32)] := (Option.some.inj h1).symm
  exact ⟨by rw [h5]; rfl, by decide, h4 (32, 32) rfl⟩

/-! ### Claim C8 -/

/-- C8: `memfile_coalesce` is idempotent: on a well-formed free list,
running coalesce a second time leaves exactly the state produced by the
first run (same header fields, same mapped words). -/
theorem coalesce_idempotent (mf : Memfile) (fuel : Nat) (l : List (Nat × Nat))
    (hw : walkMem mf.mem fuel mf.free_list_head = some l)
    (hd : l.Pairwise disjointBlocks)
    (hs : ∀ b ∈ l, 16 ≤ b.2)
    (he : ∀ b ∈ l, b.1 + b.2 < U64) :
    memfile_coalesce (memfile_coalesce mf fuel) fuel = memfile_coalesce mf fuel := by
  obtain ⟨lc, hwalk, hchain, hsz, hhead⟩ := coalesce_spec mf fuel l hw hd hs he
  exact coalesce_fixed _ fuel lc hwalk hchain

/-- Witness for `coalesce_idempotent` on two non-adjacent blocks. -/
theorem coalesce_idempotent_witness :
    memfile_coalesce (memfile_coalesce coalStateB 2) 2 = memfile_coalesce coalStateB 2 :=
  coalesce_idempotent coalStateB 2 [(32, 16), (64, 16)] (by decide) (by decide) (by decide)
    (by decide)

/-! ### Claim C5 -/

/-- C5: if the allocation header at `p - 8` stores size `s` (a multiple
of 8, at least 8, as every header written by `alloc` is), then after
`free p` the immediately following `alloc (s - 8)` returns exactly `p`:
the freed block is at the head of the free list, first-fit selects it,
and the zero remainder is below the split threshold so the block is
consumed whole. -/
theorem free_then_alloc_reuses (mf : Memfile) (p fuel : Nat)
    (hp : 8 < p) (hpU : p < U64) (hfuel : 1 ≤ fuel)
    (hs8 : 8 ≤ mf.mem (p - 8)) (hsmod : mf.mem (p - 8) % 8 = 0)
    (hsU : mf.mem (p - 8) + 16 < U64) :
    (memfile_alloc (memfile_free mf p) (mf.mem (p - 8) - 8) fuel).2 = p := by
  have hp0 : p ≠ 0 := by omega
  have hpp : p - 8 + 8 = p := Nat.sub_add_cancel (by omega)
  have hsub : u64sub p 8 = p - 8 :=
    u64sub_eq p 8 (by omega) hpU (by unfold U64; norm_num)
  have hfree : memfile_free mf p =
      { mf with
        mem := upd (upd mf.mem (p - 8) (mf.mem (p - 8))) (p - 8 + 8) mf.free_list_head,
        free_list_head := p - 8 } := by
    simp only [memfile_free, if_neg hp0, hsub]
  have hhead : (memfile_free mf p).free_list_head = p - 8 := by rw [hfree]
  have hmem : (memfile_free mf p).mem (p - 8) = mf.mem (p - 8) := by
    rw [hfree]
    show upd (upd mf.mem (p - 8) (mf.mem (p - 8))) (p - 8 + 8) mf.free_list_head (p - 8)
      = mf.mem (p - 8)
    rw [upd_ne _ _ _ _ (by omega), upd_same]
  have htot : totalSize (mf.mem (p - 8) - 8) = mf.mem (p - 8) :=
    totalSize_of_mult8 _ hs8 hsmod hsU
  have hfind : findFit (memfile_free mf p) (totalSize (mf.mem (p - 8) - 8)) fuel 0
      (memfile_free mf p).free_list_head = some (0, p - 8) := by
    obtain ⟨n, rfl⟩ : ∃ n, fuel = n + 1 := ⟨fuel - 1, by omega⟩
    rw [hhead]
    simp only [findFit]
    rw [if_neg (by omega : ¬ p - 8 = 0), htot, hmem, if_pos (Nat.le_refl _)]
  simp only [memfile_alloc]
  rw [hfind]
  dsimp only
  rw [hmem, htot, Nat.sub_self, if_neg (by omega : ¬ 16 + 8 ≤ 0)]
  dsimp only [if_pos rfl]
  exact (u64add_eq (p - 8) 8 (by omega)).trans hpp

/-- Witness for `free_then_alloc_reuses`: header size 16 at offset 32,
`p = 40`, so `alloc 8` right after `free 40` returns 40 again. -/
theorem free_then_alloc_reuses_witness :
    (memfile_alloc (memfile_free reuseState 40) (reuseState.mem (40 - 8) - 8) 1).2 = 40 :=
  free_then_alloc_reuses reuseState 40 1 (by norm_num) (by unfold U64; norm_num)
    (by norm_num) (by decide) (by decide) (by unfold U64; decide)

/-! ### Claim C6 -/

/-- C6: evaluation of the fresh-creation failure cascade.  When the
`ftruncate` step fails the open fails but the just-created file is NOT
unlinked (the code jumps straight to `fail_fd`); only the `mmap`
failure path unlinks.  This contradicts the claim that every failing
step after creation removes the file. -/
theorem open_fresh_ftruncate_no_unlink :
    (memfile_open_fresh_steps false true).success = false ∧
    (memfile_open_fresh_steps false true).unlinked = false ∧
    (memfile_open_fresh_steps true false).success = false ∧
    (memfile_open_fresh_steps true false).unlinked = true := by
  refine ⟨by decide, by decide, by decide, by decide⟩

/-! ### Claim C7 -/

/-- C7 counterexample: opening fresh with `initial_size = 100`
(`96 ≤ 100`) truncates to `100`, not to `max(100, 4096) = 4096`, and
the resulting `file_size` is smaller than 4096. -/
theorem open_fresh_size_cex :
    (memfile_open_fresh 100).file_size = 100 ∧
    max 100 4096 = 4096 ∧
    (memfile_open_fresh 100).file_size ≠ max 100 4096 ∧
    (memfile_open_fresh 100).file_size < 4096 := by
  refine ⟨by decide, by decide, by decide, by decide⟩

/-- C7 (amended): a fresh `memfile_open` substitutes 4096 exactly when
`initial_size < sizeof(header) + 64 = 96` and otherwise truncates to
`initial_size` itself, so the resulting `file_size` is at least 96 (not
necessarily 4096) and equals the mapped size. -/
theorem open_fresh_size_spec (initial_size : Nat) :
    (memfile_open_fresh initial_size).file_size =
      (if initial_size < 96 then 4096 else initial_size) ∧
    96 ≤ (memfile_open_fresh initial_size).file_size ∧
    (memfile_open_fresh initial_size).mmap_size =
      (memfile_open_fresh initial_size).file_size := by
  have h1 : (memfile_open_fresh initial_size).file_size = freshSize initial_size := rfl
  have h2 : (memfile_open_fresh initial_size).mmap_size = freshSize initial_size := rfl
  rw [h1, h2]
  unfold freshSize
  refine ⟨by norm_num, by split <;> omega, rfl⟩

/-! ### Claim C9 -/

/-- C9: `memfile_free 0` changes nothing, and `memfile_free p` for a
valid caller offset `p` mutates only free-list metadata: it leaves the
size word at `p - 8` as the stored allocation size, stores the old
`free_list_head` as the node's `next` (the word at `p`), points
`free_list_head` at `p - 8`, and leaves `magic`, `version`,
`file_size`, `allocated`, `mmap_size` and every mapped word outside the
16-byte node unchanged. -/
theorem free_frame_spec (mf : Memfile) (p : Nat) (h8 : 8 ≤ p) (hU : p < U64) :
    memfile_free mf 0 = mf ∧
    (memfile_free mf p).free_list_head = p - 8 ∧
    (memfile_free mf p).mem (p - 8) = mf.mem (p - 8) ∧
    (memfile_free mf p).mem p = mf.free_list_head ∧
    (memfile_free mf p).magic = mf.magic ∧
    (memfile_free mf p).version = mf.version ∧
    (memfile_free mf p).file_size = mf.file_size ∧
    (memfile_free mf p).allocated = mf.allocated ∧
    (memfile_free mf p).mmap_size = mf.mmap_size ∧
    (∀ x, x ≠ p - 8 → x ≠ p → (memfile_free mf p).mem x = mf.mem x) := by
  have hp0 : p ≠ 0 := by omega
  have hsub : u64sub p 8 = p - 8 :=
    u64sub_eq p 8 h8 hU (by unfold U64; norm_num)
  have hpp : p - 8 + 8 = p := Nat.sub_add_cancel h8
  have hfree : memfile_free mf p =
      { mf with
        mem := upd (upd mf.mem (p - 8) (mf.mem (p - 8))) (p - 8 + 8) mf.free_list_head,
        free_list_head := p - 8 } := by
    simp only [memfile_free, if_neg hp0, hsub]
  have hm1 : upd (upd mf.mem (p - 8) (mf.mem (p - 8))) (p - 8 + 8) mf.free_list_head (p - 8)
      = mf.mem (p - 8) := by
    rw [upd_ne _ _ _ _ (by omega), upd_same]
  have hm2 : upd (upd mf.mem (p - 8) (mf.mem (p - 8))) (p - 8 + 8) mf.free_list_head p
      = mf.free_list_head := by
    rw [hpp, upd_same]
  have hm3 : ∀ x, x ≠ p - 8 → x ≠ p →
      upd (upd mf.mem (p - 8) (mf.mem (p - 8))) (p - 8 + 8) mf.free_list_head x = mf.mem x := by
    intro x hx1 hx2
    rw [upd_ne _ _ _ _ (by omega), upd_ne _ _ _ _ hx1]
  exact ⟨by simp [memfile_free], by rw [hfree], by rw [hfree]; exact hm1,
    by rw [hfree]; exact hm2, by rw [hfree], by rw [hfree], by rw [hfree],
    by rw [hfree], by rw [hfree], by rw [hfree]; exact hm3⟩

/-- Witness for `free_frame_spec` at `p = 40` on a fresh-style state. -/
theorem free_frame_spec_witness :
    (memfile_free baseState 40).free_list_head = 32 ∧
    (memfile_free baseState 40).mem 48 = baseState.mem 48 := by
  have h := free_frame_spec baseState 40 (by norm_num) (by unfold U64; norm_num)
  exact ⟨h.2.1, h.2.2.2.2.2.2.2.2.2 48 (by norm_num) (by norm_num)⟩

/-! ### Claim C10 -/

/-- C10: `memfile_ptr` returns `NULL` exactly when `offset = 0` or
`offset ≥ mmap_size` and `base + offset` otherwise; consequently
`memfile_read` and `memfile_write` at `offset ≥ mapped_size` fail even
with `len = 0`, so the bounds comparison alone does not grant success. -/
theorem ptr_guard_spec (mf : Memfile) (offset : Nat) (buf : Nat → Nat) :
    (memfile_ptr mf offset = none ↔ (offset = 0 ∨ mf.mmap_size ≤ offset)) ∧
    (¬ (offset = 0 ∨ mf.mmap_size ≤ offset) → memfile_ptr mf offset = some offset) ∧
    (mf.mmap_size ≤ offset →
      memfile_read mf offset 0 = none ∧ (memfile_write mf offset buf 0).isNone = true) := by
  refine ⟨?_, ?_, ?_⟩
  · unfold memfile_ptr
    split <;> simp_all
  · intro h
    unfold memfile_ptr
    rw [if_neg h]
  · intro h
    have h2 : offset = 0 ∨ mf.mmap_size ≤ offset := Or.inr h
    unfold memfile_read memfile_write memfile_ptr
    by_cases hov : mf.mmap_size < u64add offset 0
    · simp [hov]
    · simp [hov, h2]

/-- Witness for `ptr_guard_spec` at `offset = mapped_size`. -/
theorem ptr_guard_spec_witness :
    memfile_read baseState 4096 0 = none ∧
    (memfile_write baseState 4096 (fun _ => 0) 0).isNone = true :=
  (ptr_guard_spec baseState 4096 (fun _ => 0)).2.2 (by decide)

end MemoryFile
